import Mathlib

/-!
Verification development for the AutoPack part-extraction core
(`src/extract_parts.py`).

The Python source has two parts relevant here:

* `extract_first_value(text, label)` — a regex search
  `re.search(rf"(?i)\b{re.escape(label)}\s*:\s*([^\r\n]+)", text)` followed by
  `.strip()` of the captured group, returning `None` when there is no match or
  the stripped capture is empty.
* `main()`'s per-file loop — a single forward pass over the pages that tracks
  `job_value`, `last_part`, `last_asm`, `range_start`, `range_end`, flushing a
  formatted row whenever the (part, asm) pair changes and once at the end.

We embed the regex search as an executable backtracking matcher specialised to
that fixed pattern shape, over `List Char`.  Character classes (`\s`, `\w`) and
the case-insensitive comparison of `(?i)` are modelled on the ASCII fragment of
Python's semantics, which covers every character the labels and the claims use:

* `\s` is `' '`, `'\t'`, `'\n'`, `'\r'`, `'\x0b'`, `'\x0c'`;
* `\w` is `A`–`Z`, `a`–`z`, `0`–`9`, `_`;
* `(?i)` identifies an ASCII letter with its other-case form.
-/

/-- Python `\s` (ASCII fragment): the six whitespace characters. -/
def isSpaceChar (c : Char) : Bool :=
  c == ' ' || c == '\t' || c == '\n' || c == '\r' || c == '\x0b' || c == '\x0c'

/-- Python `\w` (ASCII fragment): letters, digits, underscore, by code point. -/
def isWordChar (c : Char) : Bool :=
  decide ((65 ≤ c.toNat ∧ c.toNat ≤ 90) ∨ (97 ≤ c.toNat ∧ c.toNat ≤ 122) ∨
    (48 ≤ c.toNat ∧ c.toNat ≤ 57) ∨ c.toNat = 95)

/-- ASCII upper-case letter, by code point. -/
def isUpperAscii (c : Char) : Bool :=
  decide (65 ≤ c.toNat ∧ c.toNat ≤ 90)

/-- Case-insensitive character equality, Python `re.IGNORECASE` on ASCII:
equal, or equal up to the 32 code-point offset between `A`–`Z` and `a`–`z`. -/
def charCIEq (a b : Char) : Bool :=
  a == b || (isUpperAscii a && (b.toNat == a.toNat + 32)) ||
    (isUpperAscii b && (a.toNat == b.toNat + 32))

/-- A character the class `[^\r\n]` accepts. -/
def notCRLF (c : Char) : Bool :=
  !(c == '\r' || c == '\n')

/-- Match the (escaped, hence literal) label case-insensitively against a
prefix of `cs`; on success return the rest of the input. -/
def matchCI : List Char → List Char → Option (List Char)
  | [], cs => some cs
  | _ :: _, [] => none
  | l :: ls, c :: cs => if charCIEq l c then matchCI ls cs else none

/-- Match `\s*([^\r\n]+)` with Python's backtracking preferences: the leading
`\s*` is greedy, so the capture starts as late as possible while still having
at least one `[^\r\n]` character; the capture itself is greedy. -/
def findCapture : List Char → Option (List Char)
  | [] => none
  | c :: cs =>
    if isSpaceChar c then
      match findCapture cs with
      | some g => some g
      | none => if notCRLF c then some ((c :: cs).takeWhile notCRLF) else none
    else
      some ((c :: cs).takeWhile notCRLF)

/-- Match `label\s*:\s*([^\r\n]+)` at the start of `cs` and return the capture.
The `\s*` before the colon is greedy; since `:` is not a whitespace character,
skipping the maximal whitespace run is the only candidate, as in Python. -/
def matchCore (label : List Char) (cs : List Char) : Option (List Char) :=
  match matchCI label cs with
  | none => none
  | some rest =>
    match rest.dropWhile isSpaceChar with
    | [] => none
    | c :: rest2 => if c = ':' then findCapture rest2 else none

/-- Whether the character just before position `p` exists and is a word
character (at position `0`, and past the end, there is none). -/
def prevIsWord (full : List Char) (p : Nat) : Bool :=
  match p with
  | 0 => false
  | q + 1 =>
    match full.get? q with
    | some c => isWordChar c
    | none => false

/-- Whether the character at position `p` exists and is a word character. -/
def nextIsWord (full : List Char) (p : Nat) : Bool :=
  match full.get? p with
  | some c => isWordChar c
  | none => false

/-- The word-boundary test `\b` of the pattern at position `p` of `full`:
exactly one side of the position is a word character. -/
def boundaryAt (full : List Char) (p : Nat) : Bool :=
  prevIsWord full p != nextIsWord full p

/-- Attempt the whole pattern `\blabel\s*:\s*([^\r\n]+)` at start position `p`. -/
def matchAtPos (full label : List Char) (p : Nat) : Option (List Char) :=
  if boundaryAt full p then matchCore label (full.drop p) else none

/-- `re.search` scans candidate start positions left to right and stops at the
first one where the pattern matches.  `rest` drives the recursion; `search`
below starts it with `rest = full`, so positions `0` … `full.length` are tried. -/
def scanSearch (label full : List Char) : Nat → List Char → Option (List Char)
  | p, [] => matchAtPos full label p
  | p, _ :: rest =>
    match matchAtPos full label p with
    | some g => some g
    | none => scanSearch label full (p + 1) rest

/-- The capture of the leftmost match of `(?i)\blabel\s*:\s*([^\r\n]+)`. -/
def search (full label : List Char) : Option (List Char) :=
  scanSearch label full 0 full

/-- Python `str.strip()` (ASCII fragment): drop whitespace from both ends. -/
def stripChars (l : List Char) : List Char :=
  ((l.dropWhile isSpaceChar).reverse.dropWhile isSpaceChar).reverse

/-- `extract_first_value(text, label)` from `src/extract_parts.py`: the first
regex match's capture, stripped; `None` when there is no match or the stripped
capture is empty (`return value or None`). -/
def extract_first_value (text label : String) : Option String :=
  match search text.data label.data with
  | none => none
  | some g =>
    let v := stripChars g
    if v = [] then none else some (String.mk v)

/-- `extract_first_part(text)`: first `Part:` value; when several parts are
listed with `/`, keep the segment before the first slash, stripped; an empty
final value becomes `None` (`return value or None`). -/
def extract_first_part (text : String) : Option String :=
  match extract_first_value text "Part" with
  | none => none
  | some v =>
    let v2 := if v.data.contains '/' then
        stripChars (v.data.takeWhile (fun c => !(c == '/')))
      else v.data
    if v2 = [] then none else some (String.mk v2)

/-- `extract_first_asm(text)`. -/
def extract_first_asm (text : String) : Option String :=
  extract_first_value text "Asm"

/-- `extract_first_job(text)`. -/
def extract_first_job (text : String) : Option String :=
  extract_first_value text "Job"

/-- One finalized page range, the data `flush_range` formats into a row:
`start_page`/`end_page` from `range_start`/`range_end`, `part` from
`last_part`, `asm` from `last_asm or ''`. -/
structure RangeRecord where
  start_page : Nat
  end_page : Nat
  part : String
  asm : String
deriving DecidableEq

/-- The per-file accumulator of `main()`'s loop.  The source appends rows to
`file_rows` already formatted; we keep the `RangeRecord` data and apply
`renderRecord` (the exact f-string) separately. -/
structure CState where
  job_value : Option String
  last_part : Option String
  last_asm : Option String
  range_start : Option Nat
  range_end : Option Nat
  file_rows : List RangeRecord
deriving DecidableEq

/-- State at the top of the per-file loop: everything `None`, no rows. -/
def initState : CState :=
  ⟨none, none, none, none, none, []⟩

/-- `flush_range()`: return unchanged unless `last_part`, `range_start` and
`range_end` are all set; otherwise append the record for the open run, with
`asm` given by `last_asm or ''`. -/
def flush_range (s : CState) : CState :=
  match s.last_part, s.range_start, s.range_end with
  | some p, some st, some en =>
    { s with file_rows := s.file_rows ++ [⟨st, en, p, s.last_asm.getD ""⟩] }
  | _, _, _ => s

/-- The body of `for idx, page in enumerate(reader.pages, start=1)` for one
page of text `t` at 1-based index `idx`:

* if `job_value` is still `None`, set it to `extract_first_job(text)`
  (the source's trailing `or None` is the identity on this value);
* if no part is extracted, `continue`;
* otherwise read `asm` (defaulting to `""`), and either start the first run,
  extend the current run when `part == last_part and asm == last_asm and
  range_end is not None`, or flush and start a new run. -/
def processPage (s : CState) (idx : Nat) (t : String) : CState :=
  let s1 := if s.job_value = none then { s with job_value := extract_first_job t } else s
  match extract_first_part t with
  | none => s1
  | some part =>
    let a := (extract_first_asm t).getD ""
    match s1.last_part with
    | none =>
      { s1 with last_part := some part, last_asm := some a,
                range_start := some idx, range_end := some idx }
    | some lp =>
      if part = lp ∧ s1.last_asm = some a ∧ s1.range_end ≠ none then
        { s1 with range_end := some idx }
      else
        let s2 := flush_range s1
        { s2 with last_part := some part, last_asm := some a,
                  range_start := some idx, range_end := some idx }

/-- The page loop, pages numbered from `idx` upward. -/
def runPages : CState → Nat → List String → CState
  | s, _, [] => s
  | s, idx, t :: ts => runPages (processPage s idx t) (idx + 1) ts

/-- The whole per-file pass of `main()`: run the loop over the pages starting
at index 1, then the final `flush_range()`. -/
def compress (pages : List String) : CState :=
  flush_range (runPages initState 1 pages)

/-- The exact row format of `flush_range`:
`f"{page_label}  Asm: {last_asm or ''}  Part: {last_part}"` where `page_label`
is `Page {s}` for a one-page range and `Page {s}-{e}` otherwise. -/
def renderRecord (r : RangeRecord) : String :=
  (if r.start_page = r.end_page then "Page " ++ toString r.start_page
   else "Page " ++ toString r.start_page ++ "-" ++ toString r.end_page) ++
  "  Asm: " ++ r.asm ++ "  Part: " ++ r.part

/-- The per-document contribution to `rows` (source lines 132–137): nothing at
all when `file_rows` is empty; otherwise an optional `Job:` header (Python
truthiness: skipped when `job_value` is `None` or `""`), the `File:` line, the
formatted rows, and a blank separator line. -/
def docRows (name : String) (pages : List String) : List String :=
  let s := compress pages
  let fr := s.file_rows.map renderRecord
  if fr.isEmpty then []
  else
    (match s.job_value with
     | some j => if j = "" then [] else ["Job: " ++ j]
     | none => []) ++ ("File: " ++ name) :: (fr ++ [""])

/-- `List.get?` is the head of the corresponding drop. -/
lemma get?_eq_drop_head? {α : Type} : ∀ (l : List α) (n : Nat), l.get? n = (l.drop n).head?
  | [], n => by cases n <;> rfl
  | _ :: _, 0 => rfl
  | _ :: l, n + 1 => get?_eq_drop_head? l n

/-- Peeling one element off a `drop` that is known to be a cons. -/
lemma drop_cons_succ {α : Type} {l : List α} {n : Nat} {t : α} {ts : List α}
    (h : l.drop n = t :: ts) : l.drop (n + 1) = ts := by
  have h2 : (l.drop n).drop 1 = l.drop (n + 1) := List.drop_drop 1 n l
  rw [h] at h2
  exact h2.symm

/-- `flush_range` never touches `job_value`. -/
lemma flush_range_job (s : CState) : (flush_range s).job_value = s.job_value := by
  unfold flush_range
  split <;> rfl

/-- `flush_range` with an open run appends exactly one record. -/
lemma flush_range_rows_some (s : CState) (p : String) (st en : Nat)
    (hp : s.last_part = some p) (hst : s.range_start = some st)
    (hen : s.range_end = some en) :
    (flush_range s).file_rows = s.file_rows ++ [⟨st, en, p, s.last_asm.getD ""⟩] := by
  unfold flush_range
  rw [hp, hst, hen]

/-- `flush_range` with no open run leaves the rows unchanged. -/
lemma flush_range_rows_none (s : CState) (hp : s.last_part = none) :
    (flush_range s).file_rows = s.file_rows := by
  unfold flush_range
  rw [hp]

/-- A page without a part value leaves every field but `job_value` unchanged. -/
lemma processPage_skip (s : CState) (idx : Nat) (t : String)
    (hpt : extract_first_part t = none) :
    (processPage s idx t).last_part = s.last_part ∧
    (processPage s idx t).last_asm = s.last_asm ∧
    (processPage s idx t).range_start = s.range_start ∧
    (processPage s idx t).range_end = s.range_end ∧
    (processPage s idx t).file_rows = s.file_rows := by
  unfold processPage
  rw [hpt]
  by_cases hj : s.job_value = none <;> simp [hj]

/-- A qualifying page with no run open starts a run at `idx`. -/
lemma processPage_new (s : CState) (idx : Nat) (t : String) (p : String)
    (hpt : extract_first_part t = some p) (hl : s.last_part = none) :
    (processPage s idx t).last_part = some p ∧
    (processPage s idx t).last_asm = some ((extract_first_asm t).getD "") ∧
    (processPage s idx t).range_start = some idx ∧
    (processPage s idx t).range_end = some idx ∧
    (processPage s idx t).file_rows = s.file_rows := by
  unfold processPage
  rw [hpt]
  by_cases hj : s.job_value = none <;> simp [hj, hl]

/-- A qualifying page matching the open run extends it to `idx`. -/
lemma processPage_extend (s : CState) (idx : Nat) (t : String) (p lp : String)
    (hpt : extract_first_part t = some p) (hl : s.last_part = some lp)
    (hc : p = lp ∧ s.last_asm = some ((extract_first_asm t).getD "") ∧
      s.range_end ≠ none) :
    (processPage s idx t).last_part = s.last_part ∧
    (processPage s idx t).last_asm = s.last_asm ∧
    (processPage s idx t).range_start = s.range_start ∧
    (processPage s idx t).range_end = some idx ∧
    (processPage s idx t).file_rows = s.file_rows := by
  obtain ⟨hc1, hc2, hc3⟩ := hc
  unfold processPage
  rw [hpt]
  by_cases hj : s.job_value = none <;> simp [hj, hl, hc1, hc2, hc3]

/-- A qualifying page not matching the open run flushes it and starts anew. -/
lemma processPage_split (s : CState) (idx : Nat) (t : String) (p lp : String)
    (hpt : extract_first_part t = some p) (hl : s.last_part = some lp)
    (hc : ¬(p = lp ∧ s.last_asm = some ((extract_first_asm t).getD "") ∧
      s.range_end ≠ none)) :
    (processPage s idx t).last_part = some p ∧
    (processPage s idx t).last_asm = some ((extract_first_asm t).getD "") ∧
    (processPage s idx t).range_start = some idx ∧
    (processPage s idx t).range_end = some idx ∧
    (processPage s idx t).file_rows = (flush_range s).file_rows := by
  unfold processPage flush_range
  rw [hpt]
  by_cases hj : s.job_value = none <;> simp [hj, hl] <;>
    rw [if_neg (by simpa using hc)] <;> simp [hl] <;> split <;> simp

/-- `processPage` touches `job_value` exactly as the two source lines do. -/
lemma processPage_job (s : CState) (idx : Nat) (t : String) :
    (processPage s idx t).job_value =
      (if s.job_value = none then extract_first_job t else s.job_value) := by
  unfold processPage
  cases hpt : extract_first_part t with
  | none => by_cases hj : s.job_value = none <;> simp [hj]
  | some part =>
    by_cases hj : s.job_value = none <;>
      cases hl : s.last_part <;>
        simp [hj, hl, flush_range] <;> split <;> simp <;> split <;> simp

/-- The text of 1-based page `i` of the document (out-of-range pages read as
`""`, which has no extractable fields). -/
def pageText (pages : List String) (i : Nat) : String :=
  (pages.get? (i - 1)).getD ""

/-- Page `i`, if it has a part value at all, carries exactly part `p` and
(absent-normalised) asm `a`. -/
def agreesAt (pages : List String) (p a : String) (i : Nat) : Prop :=
  ∀ q, extract_first_part (pageText pages i) = some q →
    q = p ∧ (extract_first_asm (pageText pages i)).getD "" = a

/-- The record invariant claimed for `compress`'s output: ordered endpoints,
and every qualifying page inside the range carries the record's values. -/
def goodRecord (pages : List String) (r : RangeRecord) : Prop :=
  r.start_page ≤ r.end_page ∧
  ∀ i, r.start_page ≤ i → i ≤ r.end_page → agreesAt pages r.part r.asm i

/-- Invariant for the open run when the loop is about to process page `idx`:
either no run is open (all three fields `None`, as at initialisation), or the
run covers `[st, en]` with `en < idx` and every qualifying page seen since
`st` agrees with the run. -/
def RunInv (pages : List String) (s : CState) (idx : Nat) : Prop :=
  (s.last_part = none ∧ s.range_start = none ∧ s.range_end = none) ∨
  (∃ p st en, s.last_part = some p ∧ s.range_start = some st ∧
    s.range_end = some en ∧ st ≤ en ∧ en < idx ∧
    ∀ i, st ≤ i → i < idx → agreesAt pages p (s.last_asm.getD "") i)

/-- Loop invariant: all flushed records are good, and the open run is sound. -/
def StateInv (pages : List String) (s : CState) (idx : Nat) : Prop :=
  (∀ r ∈ s.file_rows, goodRecord pages r) ∧ RunInv pages s idx

/-- The invariant holds at the top of the loop. -/
lemma stateInv_init (pages : List String) : StateInv pages initState 1 := by
  constructor
  · intro r hr
    simp [initState] at hr
  · exact Or.inl ⟨rfl, rfl, rfl⟩

/-- One loop iteration preserves the invariant. -/
lemma stateInv_step (pages : List String) (s : CState) (idx : Nat) (t : String)
    (ht : pageText pages idx = t) (h : StateInv pages s idx) :
    StateInv pages (processPage s idx t) (idx + 1) := by
  obtain ⟨hrows, hrun⟩ := h
  cases hpt : extract_first_part t with
  | none =>
    obtain ⟨e1, e2, e3, e4, e5⟩ := processPage_skip s idx t hpt
    refine ⟨fun r hr => hrows r (e5 ▸ hr), ?_⟩
    rcases hrun with ⟨h1, h2, h3⟩ | ⟨p, st, en, h1, h2, h3, h4, h5, h6⟩
    · exact Or.inl ⟨e1.trans h1, e3.trans h2, e4.trans h3⟩
    · refine Or.inr ⟨p, st, en, e1.trans h1, e3.trans h2, e4.trans h3, h4,
        Nat.lt_succ_of_lt h5, ?_⟩
      intro i hi1 hi2
      rw [e2]
      rcases Nat.lt_succ_iff_lt_or_eq.mp hi2 with hlt | heq
      · exact h6 i hi1 hlt
      · intro q hq
        rw [heq, ht, hpt] at hq
        exact absurd hq (by simp)
  | some pt =>
    rcases hrun with ⟨h1, h2, h3⟩ | ⟨p, st, en, h1, h2, h3, h4, h5, h6⟩
    · obtain ⟨e1, e2, e3, e4, e5⟩ := processPage_new s idx t pt hpt h1
      refine ⟨fun r hr => hrows r (e5 ▸ hr), ?_⟩
      refine Or.inr ⟨pt, idx, idx, e1, e3, e4, le_refl idx, Nat.lt_succ_self idx, ?_⟩
      intro i hi1 hi2
      have hieq : i = idx := by omega
      rw [e2, hieq]
      intro q hq
      rw [ht, hpt] at hq
      constructor
      · exact (Option.some_inj.mp hq).symm
      · rw [ht]
        rfl
    · by_cases hc : pt = p ∧ s.last_asm = some ((extract_first_asm t).getD "") ∧
        s.range_end ≠ none
      · obtain ⟨e1, e2, e3, e4, e5⟩ := processPage_extend s idx t pt p hpt h1 hc
        refine ⟨fun r hr => hrows r (e5 ▸ hr), ?_⟩
        refine Or.inr ⟨p, st, idx, e1.trans h1, e3.trans h2, e4, by omega,
          Nat.lt_succ_self idx, ?_⟩
        intro i hi1 hi2
        rw [e2]
        rcases Nat.lt_succ_iff_lt_or_eq.mp hi2 with hlt | heq
        · exact h6 i hi1 hlt
        · intro q hq
          rw [heq, ht, hpt] at hq
          constructor
          · rw [← hc.1, (Option.some_inj.mp hq).symm]
          · rw [heq, ht, hc.2.1]
            rfl
      · obtain ⟨e1, e2, e3, e4, e5⟩ := processPage_split s idx t pt p hpt h1 hc
        constructor
        · intro r hr
          rw [e5, flush_range_rows_some s p st en h1 h2 h3] at hr
          rcases List.mem_append.mp hr with hr | hr
          · exact hrows r hr
          · have hre : r = ⟨st, en, p, s.last_asm.getD ""⟩ := by simpa using hr
            subst hre
            exact ⟨h4, fun i hi1 hi2 => h6 i hi1 (lt_of_le_of_lt hi2 h5)⟩
        · refine Or.inr ⟨pt, idx, idx, e1, e3, e4, le_refl idx, Nat.lt_succ_self idx, ?_⟩
          intro i hi1 hi2
          have hieq : i = idx := by omega
          rw [e2, hieq]
          intro q hq
          rw [ht, hpt] at hq
          constructor
          · exact (Option.some_inj.mp hq).symm
          · rw [ht]
            rfl

/-- Running the loop from a state satisfying the invariant preserves it. -/
lemma stateInv_runPages (pages : List String) :
    ∀ (ps : List String) (s : CState) (idx : Nat),
      1 ≤ idx → pages.drop (idx - 1) = ps → StateInv pages s idx →
      StateInv pages (runPages s idx ps) (idx + ps.length)
  | [], _, _, _, _, h => h
  | t :: ts, s, idx, hidx, hdrop, h => by
    have ht : pageText pages idx = t := by
      unfold pageText
      rw [get?_eq_drop_head?, hdrop]
      rfl
    have hstep := stateInv_step pages s idx t ht h
    have hdrop2 : pages.drop idx = ts := by
      have h2 := drop_cons_succ hdrop
      have h3 : idx - 1 + 1 = idx := by omega
      rwa [h3] at h2
    have hrec := stateInv_runPages pages ts (processPage s idx t) (idx + 1)
      (by omega) (by simpa using hdrop2) hstep
    have harith : idx + 1 + ts.length = idx + (t :: ts).length := by
      simp [List.length_cons]
      omega
    rw [runPages]
    rw [← harith]
    exact hrec

/-- After the final `flush_range()`, every emitted record is good. -/
lemma stateInv_flush (pages : List String) (s : CState) (idx : Nat)
    (h : StateInv pages s idx) :
    ∀ r ∈ (flush_range s).file_rows, goodRecord pages r := by
  obtain ⟨hrows, hrun⟩ := h
  rcases hrun with ⟨h1, _, _⟩ | ⟨p, st, en, h1, h2, h3, h4, h5, h6⟩
  · rw [flush_range_rows_none s h1]
    exact hrows
  · rw [flush_range_rows_some s p st en h1 h2 h3]
    intro r hr
    rcases List.mem_append.mp hr with hr | hr
    · exact hrows r hr
    · have hre : r = ⟨st, en, p, s.last_asm.getD ""⟩ := by simpa using hr
      subst hre
      exact ⟨h4, fun i hi1 hi2 => h6 i hi1 (lt_of_le_of_lt hi2 h5)⟩

/-- Follows the spec's words for the Job tracking of `DocumentReport`: the
first non-empty Job value encountered on any page, page order ascending
(`extract_first_job` never returns an empty string, so its first `some` is the
first non-empty value). -/
def firstJobSpec : List String → Option String
  | [] => none
  | t :: ts =>
    match extract_first_job t with
    | some j => some j
    | none => firstJobSpec ts

/-- The loop computes exactly the spec's first-Job value on top of whatever
`job_value` it starts with. -/
lemma runPages_job : ∀ (ps : List String) (s : CState) (idx : Nat),
    (runPages s idx ps).job_value =
      (if s.job_value = none then firstJobSpec ps else s.job_value)
  | [], s, _ => by
    cases hj : s.job_value <;> simp [runPages, firstJobSpec, hj]
  | t :: ts, s, idx => by
    rw [runPages, runPages_job ts, processPage_job]
    by_cases hj : s.job_value = none
    · simp only [hj, if_true, if_pos]
      cases hjt : extract_first_job t <;> simp [hjt, firstJobSpec]
    · simp [hj]

/-- Least-position characterisation of the left-to-right scan: if the pattern
matches at `p0`, and nowhere earlier (from `p` on), the scan returns the
capture at `p0`. -/
lemma scanSearch_found (label full : List Char) (p0 : Nat) (g : List Char)
    (hm : matchAtPos full label p0 = some g) :
    ∀ (rest : List Char) (p : Nat), p ≤ p0 → p0 ≤ p + rest.length →
      (∀ q, p ≤ q → q < p0 → matchAtPos full label q = none) →
      scanSearch label full p rest = some g
  | [], p, hp1, hp2, _ => by
    have hpe : p = p0 := by
      simp only [List.length_nil] at hp2
      omega
    rw [scanSearch, hpe, hm]
  | _ :: rest, p, hp1, hp2, hnone => by
    rw [scanSearch]
    by_cases hpe : p = p0
    · rw [hpe, hm]
    · have hq := hnone p (le_refl p) (by omega)
      rw [hq]
      exact scanSearch_found label full p0 g hm rest (p + 1) (by omega)
        (by simp only [List.length_cons] at hp2; omega)
        (fun q h1 h2 => hnone q (by omega) h2)

/-- A match needs at least one character of input beyond the boundary test, so
matches of a non-empty label only occur at positions within the text. -/
lemma matchAtPos_le_length (full label : List Char) (p : Nat)
    (h : matchAtPos full label p ≠ none) : p ≤ full.length := by
  by_contra hgt
  apply h
  unfold matchAtPos boundaryAt prevIsWord nextIsWord
  have h1 : full.get? p = none := by
    rw [List.get?_eq_none]
    omega
  cases p with
  | zero => omega
  | succ q =>
    have h2 : full.get? q = none := by
      rw [List.get?_eq_none]
      omega
    rw [List.get?_eq_getElem?] at h1 h2
    simp [h1, h2]

/-- If the scan's match attempt fails at every position, the scan fails. -/
lemma scanSearch_none (label full : List Char)
    (h : ∀ q, matchAtPos full label q = none) :
    ∀ (rest : List Char) (p : Nat), scanSearch label full p rest = none
  | [], p => by rw [scanSearch, h p]
  | _ :: rest, p => by
    rw [scanSearch, h p]
    exact scanSearch_none label full h rest (p + 1)

/-- Case-insensitive equality moves word characters to word characters. -/
lemma isWordChar_of_charCIEq (a b : Char) (ha : isWordChar a = true)
    (h : charCIEq a b = true) : isWordChar b = true := by
  unfold charCIEq isUpperAscii at h
  unfold isWordChar at ha ⊢
  simp only [Bool.or_eq_true, Bool.and_eq_true, beq_iff_eq, decide_eq_true_eq] at h ha ⊢
  rcases h with (h | h) | h
  · subst h
    exact ha
  · omega
  · omega

/-- C10: the `\s*` gaps around the colon accept line terminators, so the value
may sit on the line after the label's line: `"Part:\nA1"` (and likewise
`"Part\n: A1"`) extracts `"A1"` rather than nothing. -/
theorem whitespace_spans_lines :
    extract_first_value "Part:\nA1" "Part" = some "A1" ∧
    extract_first_value "Part\n: A1" "Part" = some "A1" := by
  decide

/-- C6: when the pattern matches but the capture strips to nothing, extraction
returns `none`, exactly as in the no-match case; in particular on
`"Part:   \n"` (where the match captures a lone space). -/
theorem empty_capture_is_absent :
    (∀ (text label : String) (g : List Char),
      search text.data label.data = some g → stripChars g = [] →
      extract_first_value text label = none) ∧
    extract_first_value "Part:   \n" "Part" = none := by
  constructor
  · intro text label g hs hg
    unfold extract_first_value
    rw [hs]
    simp [hg]
  · decide

/-- C6 witness: on `"Part:   \n"` the pattern does match, with capture `" "`,
which strips to nothing, and extraction returns `none`. -/
theorem empty_capture_is_absent_witness :
    extract_first_value "Part:   \n" "Part" = none :=
  empty_capture_is_absent.1 "Part:   \n" "Part" [' '] (by decide) (by decide)

/-- C4: the returned job value is the first non-empty Job value in ascending
page order and later pages never override it; in particular `"1001"` when page
1 has no Job, page 2 has `Job: 1001` and page 3 has `Job: 9999`. -/
theorem first_job_wins :
    (∀ pages : List String, (compress pages).job_value = firstJobSpec pages) ∧
    (compress ["no job here", "Job: 1001", "Job: 9999"]).job_value
      = some "1001" := by
  constructor
  · intro pages
    show (flush_range (runPages initState 1 pages)).job_value = _
    rw [flush_range_job, runPages_job]
    rfl
  · decide

/-- C8: extraction is determined by the leftmost position where the pattern
matches; a second, later match with a different value does not influence the
result. -/
theorem first_match_wins (text label : String) (p p2 : Nat) (g g2 : List Char)
    (hm : matchAtPos text.data label.data p = some g)
    (hfirst : ∀ q, q < p → matchAtPos text.data label.data q = none)
    (_hlater : p < p2) (_hm2 : matchAtPos text.data label.data p2 = some g2)
    (_hdiff : String.mk (stripChars g2) ≠ String.mk (stripChars g)) :
    extract_first_value text label =
      (if stripChars g = [] then none else some (String.mk (stripChars g))) := by
  unfold extract_first_value search
  have hlen : p ≤ text.data.length :=
    matchAtPos_le_length text.data label.data p (by rw [hm]; simp)
  rw [scanSearch_found label.data text.data p g hm text.data 0 (Nat.zero_le p)
    (by omega) (fun q _ h2 => hfirst q h2)]

/-- C8 witness: `"Part: A\nPart: B"` contains the label at positions 0 and 8
with different values, and extraction returns the first one. -/
theorem first_match_wins_witness :
    extract_first_value "Part: A\nPart: B" "Part" = some "A" := by
  have h := first_match_wins "Part: A\nPart: B" "Part" 0 8 ['A'] ['B']
    (by decide) (fun q hq => absurd hq (Nat.not_lt_zero q)) (by decide)
    (by decide) (by decide)
  exact h.trans (by decide)

/-- C9: the pattern requires a word boundary before the label, so on a text
where every case-insensitive occurrence of the (word-initial) label is
immediately preceded by a word character, extraction returns `none`. -/
theorem word_boundary_blocks (text label : String) (c0 : Char) (ls : List Char)
    (hlab : label.data = c0 :: ls) (hc0 : isWordChar c0 = true)
    (hocc : ∀ p, p < text.data.length + 1 →
      (matchCI label.data (text.data.drop p)).isSome = true →
      prevIsWord text.data p = true) :
    extract_first_value text label = none := by
  have hall : ∀ q, matchAtPos text.data label.data q = none := by
    intro q
    cases hci : matchCI label.data (text.data.drop q) with
    | none =>
      unfold matchAtPos matchCore
      rw [hci]
      split <;> rfl
    | some rest =>
      have hlen : q < text.data.length + 1 := by
        by_contra hq
        have hdrop : text.data.drop q = [] := List.drop_eq_nil_of_le (by omega)
        rw [hdrop, hlab] at hci
        exact absurd hci (by simp [matchCI])
      have hprev := hocc q hlen (by rw [hci]; rfl)
      obtain ⟨d, ds, hd, hcieq⟩ :
          ∃ d ds, text.data.drop q = d :: ds ∧ charCIEq c0 d = true := by
        rw [hlab] at hci
        cases hdq : text.data.drop q with
        | nil =>
          rw [hdq] at hci
          exact absurd hci (by simp [matchCI])
        | cons d ds =>
          rw [hdq] at hci
          unfold matchCI at hci
          by_cases hce : charCIEq c0 d = true
          · exact ⟨d, ds, rfl, hce⟩
          · simp [hce] at hci
      have hword : isWordChar d = true := isWordChar_of_charCIEq c0 d hc0 hcieq
      have hget : text.data.get? q = some d := by
        rw [get?_eq_drop_head?, hd]
        rfl
      have hnext : nextIsWord text.data q = true := by
        unfold nextIsWord
        rw [hget]
        exact hword
      have hb : boundaryAt text.data q = false := by
        unfold boundaryAt
        rw [hprev, hnext]
        rfl
      unfold matchAtPos
      simp [hb]
  unfold extract_first_value search
  rw [scanSearch_none label.data text.data hall text.data 0]

/-- C9 witness: in `"Subpart: X"` the only occurrence of `Part` is preceded by
the word character `b`, and extraction returns `none`. -/
theorem word_boundary_blocks_witness :
    extract_first_value "Subpart: X" "Part" = none :=
  word_boundary_blocks "Subpart: X" "Part" 'P' ['a', 'r', 't']
    (by decide) (by decide) (by decide)

/-- C1: a page from which no Part can be extracted is skipped entirely — it
neither terminates, extends, nor starts a run — so three pages reading
(X, Y), (no part), (X, Y) compress to the single record `{1, 3, X, Y}`. -/
theorem skip_without_split :
    (∀ (t1 t2 t3 X Y : String),
      extract_first_part t1 = some X → (extract_first_asm t1).getD "" = Y →
      extract_first_part t2 = none →
      extract_first_part t3 = some X → (extract_first_asm t3).getD "" = Y →
      (compress [t1, t2, t3]).file_rows = [⟨1, 3, X, Y⟩]) ∧
    (∀ (s : CState) (idx : Nat) (t : String), extract_first_part t = none →
      (processPage s idx t).last_part = s.last_part ∧
      (processPage s idx t).last_asm = s.last_asm ∧
      (processPage s idx t).range_start = s.range_start ∧
      (processPage s idx t).range_end = s.range_end ∧
      (processPage s idx t).file_rows = s.file_rows) := by
  constructor
  · intro t1 t2 t3 X Y h1p h1a h2p h3p h3a
    obtain ⟨a1, a2, a3, a4, a5⟩ := processPage_new initState 1 t1 X h1p rfl
    set s1 := processPage initState 1 t1 with hs1
    obtain ⟨b1, b2, b3, b4, b5⟩ := processPage_skip s1 2 t2 h2p
    set s2 := processPage s1 2 t2 with hs2
    have hlp2 : s2.last_part = some X := by rw [b1, a1]
    have hla2 : s2.last_asm = some Y := by rw [b2, a2, h1a]
    have hre2 : s2.range_end = some 1 := by rw [b4, a4]
    obtain ⟨c1, c2, c3, c4, c5⟩ := processPage_extend s2 3 t3 X X h3p hlp2
      ⟨rfl, by rw [hla2, h3a], by rw [hre2]; simp⟩
    set s3 := processPage s2 3 t3 with hs3
    have hrows3 : s3.file_rows = [] := by rw [c5, b5, a5]; rfl
    have hlp3 : s3.last_part = some X := by rw [c1, hlp2]
    have hla3 : s3.last_asm = some Y := by rw [c2, hla2]
    have hrs3 : s3.range_start = some 1 := by rw [c3, b3, a3]
    have hcomp : compress [t1, t2, t3] = flush_range s3 := rfl
    rw [hcomp, flush_range_rows_some s3 X 1 3 hlp3 hrs3 c4, hrows3, hla3]
    rfl
  · exact fun s idx t h => processPage_skip s idx t h

/-- C1 witness: a concrete three-page document with a partless middle page
compresses to the single spanning record. -/
theorem skip_without_split_witness :
    (compress ["Part: A\nAsm: B", "hello", "Part: A\nAsm: B"]).file_rows
      = [⟨1, 3, "A", "B"⟩] :=
  skip_without_split.1 "Part: A\nAsm: B" "hello" "Part: A\nAsm: B" "A" "B"
    (by decide) (by decide) (by decide) (by decide) (by decide)

/-- C2: when a qualifying page's (part, asm) pair differs from the open run's,
the run is finalized and a new run starts at that page, so pages reading
(X, Y), (X, Y), (Z, Y) with `Z ≠ X` compress to `{1, 2, X, Y}` then
`{3, 3, Z, Y}`. -/
theorem run_split :
    (∀ (t1 t2 t3 X Y Z : String),
      extract_first_part t1 = some X → (extract_first_asm t1).getD "" = Y →
      extract_first_part t2 = some X → (extract_first_asm t2).getD "" = Y →
      extract_first_part t3 = some Z → (extract_first_asm t3).getD "" = Y →
      Z ≠ X →
      (compress [t1, t2, t3]).file_rows = [⟨1, 2, X, Y⟩, ⟨3, 3, Z, Y⟩]) ∧
    (∀ (s : CState) (idx : Nat) (t : String) (p lp : String),
      extract_first_part t = some p → s.last_part = some lp →
      ¬(p = lp ∧ s.last_asm = some ((extract_first_asm t).getD "")) →
      (processPage s idx t).file_rows = (flush_range s).file_rows ∧
      (processPage s idx t).last_part = some p ∧
      (processPage s idx t).last_asm = some ((extract_first_asm t).getD "") ∧
      (processPage s idx t).range_start = some idx ∧
      (processPage s idx t).range_end = some idx) := by
  constructor
  · intro t1 t2 t3 X Y Z h1p h1a h2p h2a h3p h3a hne
    obtain ⟨a1, a2, a3, a4, a5⟩ := processPage_new initState 1 t1 X h1p rfl
    set s1 := processPage initState 1 t1 with hs1
    have hla1 : s1.last_asm = some Y := by rw [a2, h1a]
    obtain ⟨b1, b2, b3, b4, b5⟩ := processPage_extend s1 2 t2 X X h2p a1
      ⟨rfl, by rw [hla1, h2a], by rw [a4]; simp⟩
    set s2 := processPage s1 2 t2 with hs2
    have hlp2 : s2.last_part = some X := by rw [b1, a1]
    have hla2 : s2.last_asm = some Y := by rw [b2, hla1]
    have hrs2 : s2.range_start = some 1 := by rw [b3, a3]
    obtain ⟨c1, c2, c3, c4, c5⟩ := processPage_split s2 3 t3 Z X h3p hlp2
      (fun hcon => hne hcon.1)
    set s3 := processPage s2 3 t3 with hs3
    have hrows3 : s3.file_rows = [⟨1, 2, X, Y⟩] := by
      rw [c5, flush_range_rows_some s2 X 1 2 hlp2 hrs2 b4, b5, a5, hla2]
      rfl
    have hla3 : s3.last_asm = some Y := by rw [c2, h3a]
    have hcomp : compress [t1, t2, t3] = flush_range s3 := rfl
    rw [hcomp, flush_range_rows_some s3 Z 3 3 c1 c3 c4, hrows3, hla3]
    rfl
  · intro s idx t p lp hpt hlp hdiff
    obtain ⟨e1, e2, e3, e4, e5⟩ := processPage_split s idx t p lp hpt hlp
      (fun hcon => hdiff ⟨hcon.1, hcon.2.1⟩)
    exact ⟨e5, e1, e2, e3, e4⟩

/-- C2 witness: a concrete three-page document whose third page changes the
part compresses to two records. -/
theorem run_split_witness :
    (compress ["Part: A\nAsm: B", "Part: A\nAsm: B", "Part: C\nAsm: B"]).file_rows
      = [⟨1, 2, "A", "B"⟩, ⟨3, 3, "C", "B"⟩] :=
  run_split.1 "Part: A\nAsm: B" "Part: A\nAsm: B" "Part: C\nAsm: B" "A" "B" "C"
    (by decide) (by decide) (by decide) (by decide) (by decide) (by decide)
    (by decide)

/-- C3: every record `compress` emits has ordered endpoints, and every page in
its range that has a Part value at all carries exactly the record's part and
(absent-normalised) asm — for every input page sequence. -/
theorem records_invariant (pages : List String) (r : RangeRecord)
    (hr : r ∈ (compress pages).file_rows) : goodRecord pages r := by
  have hinv := stateInv_runPages pages pages initState 1 (le_refl 1) rfl
    (stateInv_init pages)
  exact stateInv_flush pages (runPages initState 1 pages) (1 + pages.length)
    hinv r hr

/-- C3 witness: the one record of a one-page document is good. -/
theorem records_invariant_witness : goodRecord ["Part: A"] ⟨1, 1, "A", ""⟩ :=
  records_invariant ["Part: A"] ⟨1, 1, "A", ""⟩ (by decide)

/-- Rebuilding a string from its character list is the identity. -/
lemma string_mk_data (v : String) : String.mk v.data = v := by
  cases v
  rfl

/-- A built string is empty exactly when its character list is. -/
lemma string_mk_eq_empty (l : List Char) : String.mk l = "" ↔ l = [] := by
  constructor
  · intro h
    have h2 := congrArg String.data h
    simpa using h2
  · intro h
    subst h
    rfl

/-- The shape of a successful extraction: a stripped, non-empty capture. -/
lemma extract_first_value_eq_some (text label : String) (v : String)
    (h : extract_first_value text label = some v) :
    ∃ g, search text.data label.data = some g ∧ stripChars g ≠ [] ∧
      v = String.mk (stripChars g) := by
  unfold extract_first_value at h
  cases hs : search text.data label.data with
  | none => simp [hs] at h
  | some g =>
    rw [hs] at h
    by_cases hg : stripChars g = []
    · simp [hg] at h
    · simp only [hg, if_false, ite_false, Option.some_inj] at h
      exact ⟨g, rfl, hg, h.symm⟩

/-- C5 counterexample: for the one-page document `["Job: 7"]` the job value is
present, yet the rendered report for the document is empty — no `Job:` header
is produced, because the source emits the header (and everything else) only
when `file_rows` is non-empty. -/
theorem job_header_counterexample :
    (compress ["Job: 7"]).job_value = some "7" ∧
      docRows "a.pdf" ["Job: 7"] = [] := by
  decide

/-- C5 amended: the `Job: {job}` header line is produced exactly when the job
value is present (and, as a Python-truthiness artefact, non-empty) AND the
document has at least one range record; when `file_rows` is empty nothing at
all is emitted for the document, header included. -/
theorem job_header_amended (name : String) (pages : List String) :
    ((compress pages).file_rows = [] → docRows name pages = []) ∧
    (∀ j, (compress pages).job_value = some j → j ≠ "" →
      (compress pages).file_rows ≠ [] →
      docRows name pages =
        ("Job: " ++ j) :: ("File: " ++ name) ::
          ((compress pages).file_rows.map renderRecord ++ [""])) ∧
    ((compress pages).job_value = none → (compress pages).file_rows ≠ [] →
      docRows name pages =
        ("File: " ++ name) ::
          ((compress pages).file_rows.map renderRecord ++ [""])) := by
  refine ⟨?_, ?_, ?_⟩
  · intro h
    simp [docRows, h]
  · intro j hj hjne hrows
    cases hfr : (compress pages).file_rows with
    | nil => exact absurd hfr hrows
    | cons a l =>
      simp [docRows, hfr, hj, hjne]
  · intro hj hrows
    cases hfr : (compress pages).file_rows with
    | nil => exact absurd hfr hrows
    | cons a l =>
      simp [docRows, hfr, hj]

/-- C5 witness: a document with a job and one record renders the header, the
file line, the record row and the blank separator. -/
theorem job_header_amended_witness :
    docRows "f.pdf" ["Job: 5\nPart: A"] =
      ("Job: " ++ "5") :: ("File: " ++ "f.pdf") ::
        ((compress ["Job: 5\nPart: A"]).file_rows.map renderRecord ++ [""]) :=
  (job_header_amended "f.pdf" ["Job: 5\nPart: A"]).2.1 "5"
    (by decide) (by decide) (by decide)

/-- Follows the spec's words for `extract_part`: call `extract(text, "Part")`
and, if the result contains a forward-slash delimiter, truncate to the
substring before the first slash, then trim whitespace — with no further
normalisation of the outcome. -/
def extract_part_spec (text : String) : Option String :=
  match extract_first_value text "Part" with
  | none => none
  | some v =>
    if v.data.contains '/' then
      some (String.mk (stripChars (v.data.takeWhile (fun c => !(c == '/')))))
    else some v

/-- The amended description of `extract_first_part`: the spec's
truncate-and-trim result, except that an empty resulting value is reported as
absent (the source's final `return value or None`). -/
def extract_part_spec_amd (text : String) : Option String :=
  match extract_part_spec text with
  | none => none
  | some v => if v = "" then none else some v

/-- C7 counterexample: on `"Part: /B456"` the claim's described function
yields the present-but-empty value `""` (truncating `"/B456"` at the slash),
while the code returns absent. -/
theorem part_truncation_counterexample :
    extract_first_part "Part: /B456" = none ∧
      extract_part_spec "Part: /B456" = some "" := by
  decide

/-- C7 amended: `extract_first_part` is the spec's truncate-and-trim
description composed with empty-to-absent normalisation; the `"A123/B456"`
instance is unchanged. -/
theorem part_truncation_amended :
    (∀ text : String, extract_first_part text = extract_part_spec_amd text) ∧
    extract_first_part "Part: A123/B456" = some "A123" := by
  constructor
  · intro text
    unfold extract_first_part extract_part_spec_amd extract_part_spec
    cases hv : extract_first_value text "Part" with
    | none => rfl
    | some v =>
      obtain ⟨g, _, hgne, hvg⟩ := extract_first_value_eq_some text "Part" v hv
      by_cases hsl : v.data.contains '/'
      · simp only [hsl, if_true, ite_true]
        by_cases hw : stripChars (v.data.takeWhile (fun c => !(c == '/'))) = []
        · simp [hw, string_mk_eq_empty]
        · simp [hw, string_mk_eq_empty]
      · simp only [hsl, if_false, ite_false, Bool.false_eq_true]
        have hvne : v.data ≠ [] := by
          rw [hvg]
          exact hgne
        have hvne2 : ¬v = "" := by
          intro he
          apply hvne
          rw [he]
        simp [hvne, hvne2, string_mk_data]
  · decide
